import Mathlib

/-!
Verification of the jsr npm-compatibility CLI against its specification.

The development shallowly embeds the TypeScript sources:
* `src/utils.ts` — the package identity parser (`JsrPackage`), the project
  locator (`findProjectDir`), line-ending detection (`getNewLineChars`) and
  the subprocess error type (`ExecError`);
* `src/commands.ts` — the registry configuration writers (`setupNpmRc`,
  `setupBunfigToml`) and the show-info version resolution policy;
* `src/pkg_manager.ts` — the four package-manager adapters;
* `src/bin.ts` — the top-level `run` error dispatch.

Strings are modelled as `List Char` (the `.data` of a Lean `String`), files
as `Option (List Char)` (`none` = the file does not exist), and the ancestor
directory chain of the locator as a `List DirEntry` indexed from the starting
directory (index 0) up to the filesystem root (last element).
-/

namespace JsrNpm

/-- Character class `[a-z]` used by the scope pattern in `EXTRACT_REG`. -/
def isLowerAlpha (c : Char) : Bool := ('a' ≤ c) && (c ≤ 'z')

/-- Character class `[a-z0-9-]` shared by the scope-tail and name patterns of
`EXTRACT_REG` and `EXTRACT_REG_PROXY` in `src/utils.ts`. -/
def isNameChar (c : Char) : Bool :=
  isLowerAlpha c || (('0' ≤ c) && (c ≤ '9')) || c == '-'

/-- The parsed package identity (`class JsrPackage` in `src/utils.ts`). -/
structure JsrPackage where
  scope : List Char
  name : List Char
  version : Option (List Char)
deriving Repr, DecidableEq

/-- Error universe of the CLI: `JsrPackageNameError`, `ExecError` (carrying
the subprocess exit code) and any other thrown `Error`. -/
inductive JsrError where
  | jsrPackageNameError (msg : List Char)
  | execError (code : Int)
  | genericError (msg : List Char)
deriving Repr, DecidableEq

instance {α β : Type} [DecidableEq α] [DecidableEq β] :
    DecidableEq (Except α β) := fun x y =>
  match x, y with
  | .ok a, .ok b => decidable_of_iff (a = b) (by simp)
  | .error a, .error b => decidable_of_iff (a = b) (by simp)
  | .ok _, .error _ => isFalse (by simp)
  | .error _, .ok _ => isFalse (by simp)

/-- The `(@(.+))?$` tail of both regexes: end of input, or `@` followed by a
nonempty version string. -/
def matchVersionPart (r : List Char) : Option (Option (List Char)) :=
  match r with
  | [] => some none
  | '@' :: v => if v.isEmpty then none else some (some v)
  | _ => none

/-- The `([a-z0-9-]+)(@(.+))?$` tail of both regexes: a nonempty maximal run
of name characters followed by the optional version part. -/
def matchNamePart (r : List Char) : Option (List Char × Option (List Char)) :=
  if (r.takeWhile isNameChar).isEmpty then none
  else
    match matchVersionPart (r.dropWhile isNameChar) with
    | some ver => some (r.takeWhile isNameChar, ver)
    | none => none

/-- The `([a-z][a-z0-9-]+)` scope group: a lowercase letter followed by a
nonempty maximal run of name characters; returns the scope and the rest. -/
def matchScopePart (r : List Char) : Option (List Char × List Char) :=
  match r with
  | c :: cs =>
    if isLowerAlpha c then
      if (cs.takeWhile isNameChar).isEmpty then none
      else some (c :: cs.takeWhile isNameChar, cs.dropWhile isNameChar)
    else none
  | [] => none

/-- `EXTRACT_REG = /^@([a-z][a-z0-9-]+)\/([a-z0-9-]+)(@(.+))?$/` applied to
the whole input (anchored match), from `src/utils.ts`. -/
def matchExtract (input : List Char) : Option JsrPackage :=
  match input with
  | '@' :: rest =>
    match matchScopePart rest with
    | some (scope, afterScope) =>
      match afterScope with
      | '/' :: r2 =>
        match matchNamePart r2 with
        | some (name, ver) => some ⟨scope, name, ver⟩
        | none => none
      | _ => none
    | none => none
  | _ => none

/-- `EXTRACT_REG_PROXY = /^@jsr\/([a-z][a-z0-9-]+)__([a-z0-9-]+)(@(.+))?$/`
applied to the whole input, from `src/utils.ts`. -/
def matchExtractProxy (input : List Char) : Option JsrPackage :=
  match input with
  | '@' :: 'j' :: 's' :: 'r' :: '/' :: rest =>
    match matchScopePart rest with
    | some (scope, afterScope) =>
      match afterScope with
      | '_' :: '_' :: r2 =>
        match matchNamePart r2 with
        | some (name, ver) => some ⟨scope, name, ver⟩
        | none => none
      | _ => none
    | none => none
  | _ => none

/-- `JsrPackage.from` (`src/utils.ts` lines 23-43): try the canonical
pattern, then the proxy pattern, else throw `JsrPackageNameError`. -/
def JsrPackage.fromInput (input : List Char) : Except JsrError JsrPackage :=
  match matchExtract input with
  | some p => .ok p
  | none =>
    match matchExtractProxy input with
    | some p => .ok p
    | none =>
      .error (.jsrPackageNameError
        (("Invalid jsr package name: A jsr package name must have the format @<scope>/<name>, but got \"".data)
          ++ input ++ ("\"".data)))

/-- The `@${this.version}` / empty-string version suffix shared by
`toString` and `toNpmPackage`. -/
def versionSuffix (v : Option (List Char)) : List Char :=
  match v with
  | some ver => '@' :: ver
  | none => []

/-- `JsrPackage.prototype.toString`: the canonical form
`@scope/name[@version]`. -/
def JsrPackage.toString (p : JsrPackage) : List Char :=
  '@' :: (p.scope ++ '/' :: (p.name ++ versionSuffix p.version))

/-- `JsrPackage.prototype.toNpmPackage`: the proxy-mirrored form
`@jsr/scope__name[@version]`. -/
def JsrPackage.toNpmPackage (p : JsrPackage) : List Char :=
  ("@jsr/".data) ++ p.scope ++ ('_' :: '_' :: (p.name ++ versionSuffix p.version))

/-- Shape invariant produced by a successful parse: the scope is a lowercase
letter followed by a nonempty run of name characters, the name is a nonempty
run of name characters, and the version (when present) is nonempty. -/
def ValidPkg (p : JsrPackage) : Prop :=
  (∃ c cs, p.scope = c :: cs ∧ isLowerAlpha c = true ∧ cs ≠ [] ∧
    ∀ x ∈ cs, isNameChar x = true) ∧
  (p.name ≠ [] ∧ ∀ x ∈ p.name, isNameChar x = true) ∧
  (∀ v, p.version = some v → v ≠ [])

theorem isNameChar_of_lower {c : Char} (h : isLowerAlpha c = true) :
    isNameChar c = true := by
  simp [isNameChar, h]

theorem takeWhile_all_of {p : Char → Bool} {l : List Char}
    (h : ∀ x ∈ l, p x = true) : l.takeWhile p = l := by
  induction l with
  | nil => rfl
  | cons a as ih =>
    have ha : p a = true := h a (by simp)
    simp only [List.takeWhile_cons, ha]
    simp [ih (fun x hx => h x (by simp [hx]))]

theorem dropWhile_all_of {p : Char → Bool} {l : List Char}
    (h : ∀ x ∈ l, p x = true) : l.dropWhile p = [] := by
  induction l with
  | nil => rfl
  | cons a as ih =>
    have ha : p a = true := h a (by simp)
    simp only [List.dropWhile_cons, ha]
    simp [ih (fun x hx => h x (by simp [hx]))]

theorem takeWhile_all_append {p : Char → Bool} {l : List Char}
    (h : ∀ x ∈ l, p x = true) {c : Char} (hc : p c = false) (r : List Char) :
    (l ++ c :: r).takeWhile p = l := by
  induction l with
  | nil => simp [List.takeWhile_cons, hc]
  | cons a as ih =>
    have ha : p a = true := h a (by simp)
    simp only [List.cons_append, List.takeWhile_cons, ha, if_pos]
    simp [ih (fun x hx => h x (by simp [hx]))]

theorem dropWhile_all_append {p : Char → Bool} {l : List Char}
    (h : ∀ x ∈ l, p x = true) {c : Char} (hc : p c = false) (r : List Char) :
    (l ++ c :: r).dropWhile p = c :: r := by
  induction l with
  | nil => simp [List.dropWhile_cons, hc]
  | cons a as ih =>
    have ha : p a = true := h a (by simp)
    simp only [List.cons_append, List.dropWhile_cons, ha, if_pos]
    simp [ih (fun x hx => h x (by simp [hx]))]

theorem matchVersionPart_sound {r : List Char} {ver : Option (List Char)}
    (h : matchVersionPart r = some ver) :
    r = versionSuffix ver ∧ ∀ v, ver = some v → v ≠ [] := by
  unfold matchVersionPart at h
  split at h
  · cases h
    exact ⟨rfl, by intro v hv; cases hv⟩
  · rename_i v
    split at h
    · cases h
    · cases h
      refine ⟨rfl, ?_⟩
      intro w hw
      cases hw
      simpa [List.isEmpty_iff] using (by assumption : (v.isEmpty = true) → False)
  · cases h

theorem matchVersionPart_complete {ver : Option (List Char)}
    (hv : ∀ v, ver = some v → v ≠ []) :
    matchVersionPart (versionSuffix ver) = some ver := by
  cases ver with
  | none => rfl
  | some v =>
    have hne : v ≠ [] := hv v rfl
    simp [versionSuffix, matchVersionPart, List.isEmpty_iff, hne]

theorem matchNamePart_sound {r : List Char} {name : List Char}
    {ver : Option (List Char)} (h : matchNamePart r = some (name, ver)) :
    r = name ++ versionSuffix ver ∧ name ≠ [] ∧
      (∀ x ∈ name, isNameChar x = true) ∧ ∀ v, ver = some v → v ≠ [] := by
  unfold matchNamePart at h
  split at h
  · cases h
  · rename_i hne
    split at h
    · rename_i ver2 hv
      cases h
      obtain ⟨hsuf, hver⟩ := matchVersionPart_sound hv
      refine ⟨?_, ?_, ?_, hver⟩
      · conv_lhs => rw [← List.takeWhile_append_dropWhile (p := isNameChar) (l := r)]
        rw [hsuf]
      · simpa [List.isEmpty_iff] using hne
      · intro x hx
        exact List.mem_takeWhile_imp hx
    · cases h

theorem matchNamePart_complete {name : List Char} {ver : Option (List Char)}
    (hne : name ≠ []) (hall : ∀ x ∈ name, isNameChar x = true)
    (hv : ∀ v, ver = some v → v ≠ []) :
    matchNamePart (name ++ versionSuffix ver) = some (name, ver) := by
  have hat : isNameChar '@' = false := by decide
  have htake : (name ++ versionSuffix ver).takeWhile isNameChar = name := by
    cases ver with
    | none => simpa [versionSuffix] using takeWhile_all_of hall
    | some v => exact takeWhile_all_append hall hat v
  have hdrop : (name ++ versionSuffix ver).dropWhile isNameChar = versionSuffix ver := by
    cases ver with
    | none => simpa [versionSuffix] using dropWhile_all_of hall
    | some v => exact dropWhile_all_append hall hat v
  unfold matchNamePart
  rw [htake, hdrop, matchVersionPart_complete hv]
  simp [List.isEmpty_iff, hne]

theorem matchScopePart_sound {r scope after : List Char}
    (h : matchScopePart r = some (scope, after)) :
    r = scope ++ after ∧ ∃ c cs, scope = c :: cs ∧ isLowerAlpha c = true ∧
      cs ≠ [] ∧ ∀ x ∈ cs, isNameChar x = true := by
  unfold matchScopePart at h
  split at h
  · rename_i c cs
    split at h
    · rename_i hc
      split at h
      · cases h
      · rename_i hne
        cases h
        constructor
        · simp [List.takeWhile_append_dropWhile]
        · refine ⟨c, cs.takeWhile isNameChar, rfl, hc, ?_, ?_⟩
          · simpa [List.isEmpty_iff] using hne
          · intro x hx
            exact List.mem_takeWhile_imp hx
    · cases h
  · cases h

theorem matchScopePart_complete {c : Char} {cs : List Char}
    (hc : isLowerAlpha c = true) (hcs : cs ≠ [])
    (hall : ∀ x ∈ cs, isNameChar x = true) {d : Char}
    (hd : isNameChar d = false) (r : List Char) :
    matchScopePart ((c :: cs) ++ d :: r) = some (c :: cs, d :: r) := by
  unfold matchScopePart
  simp only [List.cons_append, hc, if_pos]
  rw [takeWhile_all_append hall hd, dropWhile_all_append hall hd]
  simp [List.isEmpty_iff, hcs]

theorem matchExtract_sound {s : List Char} {p : JsrPackage}
    (h : matchExtract s = some p) : p.toString = s ∧ ValidPkg p := by
  unfold matchExtract at h
  split at h
  · rename_i rest
    split at h
    · rename_i scope afterScope hscope
      split at h
      · rename_i r2
        split at h
        · rename_i name ver hname
          cases h
          obtain ⟨hr, c, cs, hsc, hc, hcs, hall⟩ := matchScopePart_sound hscope
          obtain ⟨hr2, hne, hnall, hver⟩ := matchNamePart_sound hname
          refine ⟨?_, ⟨c, cs, hsc, hc, hcs, hall⟩, ⟨hne, hnall⟩, hver⟩
          simp only [JsrPackage.toString, hr, hr2]
        · cases h
      · cases h
    · cases h
  · cases h

theorem matchExtract_complete {p : JsrPackage} (h : ValidPkg p) :
    matchExtract p.toString = some p := by
  obtain ⟨⟨c, cs, hsc, hc, hcs, hall⟩, ⟨hne, hnall⟩, hver⟩ := h
  have hslash : isNameChar '/' = false := by decide
  have hstep : p.toString = '@' :: ((c :: cs) ++ '/' :: (p.name ++ versionSuffix p.version)) := by
    simp [JsrPackage.toString, hsc]
  rw [hstep]
  simp only [matchExtract, matchScopePart_complete hc hcs hall hslash,
    matchNamePart_complete hne hnall hver]
  rw [← hsc]

theorem matchExtractProxy_sound {s : List Char} {p : JsrPackage}
    (h : matchExtractProxy s = some p) : p.toNpmPackage = s ∧ ValidPkg p := by
  unfold matchExtractProxy at h
  split at h
  · rename_i rest
    split at h
    · rename_i scope afterScope hscope
      split at h
      · rename_i r2
        split at h
        · rename_i name ver hname
          cases h
          obtain ⟨hr, c, cs, hsc, hc, hcs, hall⟩ := matchScopePart_sound hscope
          obtain ⟨hr2, hne, hnall, hver⟩ := matchNamePart_sound hname
          refine ⟨?_, ⟨c, cs, hsc, hc, hcs, hall⟩, ⟨hne, hnall⟩, hver⟩
          simp only [JsrPackage.toNpmPackage, hr, hr2]
          rfl
        · cases h
      · cases h
    · cases h
  · cases h

theorem matchExtractProxy_complete {p : JsrPackage} (h : ValidPkg p) :
    matchExtractProxy p.toNpmPackage = some p := by
  obtain ⟨⟨c, cs, hsc, hc, hcs, hall⟩, ⟨hne, hnall⟩, hver⟩ := h
  have hus : isNameChar '_' = false := by decide
  have hstep : p.toNpmPackage =
      '@' :: 'j' :: 's' :: 'r' :: '/' ::
        ((c :: cs) ++ '_' :: ('_' :: (p.name ++ versionSuffix p.version))) := by
    simp [JsrPackage.toNpmPackage, hsc]
  rw [hstep]
  simp only [matchExtractProxy, matchScopePart_complete hc hcs hall hus,
    matchNamePart_complete hne hnall hver]
  rw [← hsc]

theorem matchExtract_toNpmPackage {p : JsrPackage} (h : ValidPkg p) :
    matchExtract p.toNpmPackage = none := by
  obtain ⟨⟨c, cs, hsc, hc, hcs, hall⟩, ⟨hne, hnall⟩, hver⟩ := h
  have hstep : p.toNpmPackage =
      '@' :: 'j' :: 's' :: 'r' :: '/' ::
        ((c :: cs) ++ '_' :: ('_' :: (p.name ++ versionSuffix p.version))) := by
    simp [JsrPackage.toNpmPackage, hsc]
  have hallscope : ∀ x ∈ c :: cs, isNameChar x = true := by
    intro x hx
    rcases List.mem_cons.mp hx with hx | hx
    · subst hx
      exact isNameChar_of_lower hc
    · exact hall x hx
  have hus : isNameChar '_' = false := by decide
  rw [hstep]
  have hsc2 : matchScopePart ('j' :: 's' :: 'r' :: '/' ::
      ((c :: cs) ++ '_' :: ('_' :: (p.name ++ versionSuffix p.version)))) =
      some (('j' :: ['s', 'r']), '/' ::
        ((c :: cs) ++ '_' :: ('_' :: (p.name ++ versionSuffix p.version)))) := by
    unfold matchScopePart
    simp [List.takeWhile_cons, List.dropWhile_cons, isNameChar, isLowerAlpha]
  have hnm : matchNamePart ((c :: cs) ++ '_' :: ('_' :: (p.name ++ versionSuffix p.version))) = none := by
    unfold matchNamePart
    rw [takeWhile_all_append hallscope hus, dropWhile_all_append hallscope hus]
    have hvp : matchVersionPart ('_' :: ('_' :: (p.name ++ versionSuffix p.version))) = none := by
      unfold matchVersionPart
      rfl
    rw [hvp]
    simp
  simp only [matchExtract, hsc2, hnm]

theorem fromInput_valid {s : List Char} {p : JsrPackage}
    (h : JsrPackage.fromInput s = .ok p) : ValidPkg p := by
  unfold JsrPackage.fromInput at h
  split at h
  · rename_i q hq
    cases h
    exact (matchExtract_sound hq).2
  · split at h
    · rename_i q hq
      cases h
      exact (matchExtractProxy_sound hq).2
    · cases h

/-- C1: for every input accepted by `JsrPackage.from` (the canonical form
`@scope/name[@version]` or the proxy-mirrored form
`@jsr/scope__name[@version]`), the parse round-trips: `toString` on the
result reconstructs the canonical form (and equals a canonical input
verbatim), `toNpmPackage` reconstructs the proxy-mirrored form (and equals a
proxy input verbatim), and re-parsing either rendering yields the same
parsed package, independent of which form the original input was. -/
theorem c1_parse_round_trip (s : List Char) (p : JsrPackage)
    (h : JsrPackage.fromInput s = .ok p) :
    (matchExtract s = some p → p.toString = s) ∧
    (matchExtractProxy s = some p → p.toNpmPackage = s) ∧
    JsrPackage.fromInput p.toString = .ok p ∧
    JsrPackage.fromInput p.toNpmPackage = .ok p := by
  have hv : ValidPkg p := fromInput_valid h
  refine ⟨fun hm => (matchExtract_sound hm).1,
    fun hm => (matchExtractProxy_sound hm).1, ?_, ?_⟩
  · unfold JsrPackage.fromInput
    rw [matchExtract_complete hv]
  · unfold JsrPackage.fromInput
    rw [matchExtract_toNpmPackage hv, matchExtractProxy_complete hv]

/-- C1 witness: the theorem applied to the concrete input `@std/fs@1.0.0`. -/
theorem c1_parse_round_trip_witness :
    JsrPackage.fromInput ("@std/fs@1.0.0".data) =
      .ok ⟨"std".data, "fs".data, some ("1.0.0".data)⟩ ∧
    ((matchExtract ("@std/fs@1.0.0".data) =
        some ⟨"std".data, "fs".data, some ("1.0.0".data)⟩ →
      JsrPackage.toString ⟨"std".data, "fs".data, some ("1.0.0".data)⟩ =
        "@std/fs@1.0.0".data) ∧
     (matchExtractProxy ("@std/fs@1.0.0".data) =
        some ⟨"std".data, "fs".data, some ("1.0.0".data)⟩ →
      JsrPackage.toNpmPackage ⟨"std".data, "fs".data, some ("1.0.0".data)⟩ =
        "@std/fs@1.0.0".data) ∧
     JsrPackage.fromInput
        (JsrPackage.toString ⟨"std".data, "fs".data, some ("1.0.0".data)⟩) =
       .ok ⟨"std".data, "fs".data, some ("1.0.0".data)⟩ ∧
     JsrPackage.fromInput
        (JsrPackage.toNpmPackage ⟨"std".data, "fs".data, some ("1.0.0".data)⟩) =
       .ok ⟨"std".data, "fs".data, some ("1.0.0".data)⟩) :=
  ⟨by decide, c1_parse_round_trip ("@std/fs@1.0.0".data) _ (by decide)⟩

/-- The pattern `[a-z][a-z0-9-]+` that the spec claims both scope and name
satisfy (a lowercase letter followed by at least one further character). -/
def scopePattern (l : List Char) : Bool :=
  match l with
  | c :: cs => isLowerAlpha c && !cs.isEmpty && cs.all isNameChar
  | [] => false

/-- The pattern `[a-z0-9-]+` that the code actually enforces for the name
group of both regexes. -/
def namePattern (l : List Char) : Bool :=
  !l.isEmpty && l.all isNameChar

/-- C2 counterexample: `@ab/0` is accepted by `JsrPackage.from` with name
`0`, which does not match the claimed pattern `[a-z][a-z0-9-]+` (it starts
with a digit and has length one). -/
theorem c2_name_pattern_counterexample :
    JsrPackage.fromInput ("@ab/0".data) = .ok ⟨"ab".data, "0".data, none⟩ ∧
    scopePattern ("0".data) = false := by decide

/-- C2 amended: for every input, `JsrPackage.from` either returns a package
whose scope matches `[a-z][a-z0-9-]+` and whose name matches `[a-z0-9-]+`
(the name may be a single character and may start with a digit or dash), or
fails with `JsrPackageNameError` — never with any other error kind; in
particular every malformed identifier fails with the naming error. -/
theorem c2_parse_errors_are_naming_errors (s : List Char) :
    (∃ p, JsrPackage.fromInput s = .ok p ∧
      scopePattern p.scope = true ∧ namePattern p.name = true) ∨
    (∃ msg, JsrPackage.fromInput s = .error (.jsrPackageNameError msg)) := by
  cases hres : JsrPackage.fromInput s with
  | ok p =>
    left
    obtain ⟨⟨c, cs, hsc, hc, hcs, hall⟩, ⟨hne, hnall⟩, _⟩ := fromInput_valid hres
    refine ⟨p, rfl, ?_, ?_⟩
    · rw [hsc]
      simp only [scopePattern, hc, Bool.true_and, Bool.and_eq_true,
        Bool.not_eq_true', List.isEmpty_eq_false, List.all_eq_true]
      exact ⟨by simpa using hcs, hall⟩
    · simp only [namePattern, Bool.and_eq_true, Bool.not_eq_true',
        List.isEmpty_eq_false, List.all_eq_true]
      exact ⟨by simpa using hne, hnall⟩
  | error e =>
    right
    unfold JsrPackage.fromInput at hres
    split at hres
    · cases hres
    · split at hres
      · cases hres
      · cases hres
        exact ⟨_, rfl⟩

/-- Supported package managers (`PkgManagerName` in `src/pkg_manager.ts`). -/
inductive PkgManagerName where
  | npm | yarn | pnpm | bun
deriving Repr, DecidableEq

/-- Abstraction of one directory on the ancestor chain: which of the files
probed by `findProjectDir` exist there, and the parsed `workspaces` field of
its `package.json` (`some globs` when the field is an array). -/
structure DirEntry where
  hasPackageJson : Bool
  workspaces : Option (List (List Char))
  hasPnpmWorkspaceYaml : Bool
  hasNpmLock : Bool
  hasBunLock : Bool
  hasYarnLock : Bool
  hasPnpmLock : Bool
deriving Repr, DecidableEq, Inhabited

/-- `ProjectInfo` (`src/utils.ts` lines 71-76); directories are identified
by their index on the ancestor chain (0 = the starting directory `cwd`). -/
structure ProjectInfo where
  projectDir : Nat
  pkgManagerName : Option PkgManagerName
  pkgJsonPath : Option Nat
  root : Option Nat
deriving Repr, DecidableEq

/-- The manifest/workspace half of one `findProjectDir` iteration
(`src/utils.ts` lines 87-109): while no `package.json` has been recorded,
record the first one found (setting `projectDir` and `pkgJsonPath`);
afterwards, a higher directory whose `package.json` has an array
`workspaces` field, or which has a `pnpm-workspace.yaml` next to a
`package.json`, overwrites `root`. -/
def stepManifest (d : DirEntry) (i : Nat) (result : ProjectInfo) : ProjectInfo :=
  if result.pkgJsonPath = none then
    if d.hasPackageJson then
      { result with projectDir := i, pkgJsonPath := some i }
    else result
  else
    if d.hasPackageJson then
      if (d.workspaces).isSome then { result with root := some i }
      else if d.hasPnpmWorkspaceYaml then { result with root := some i }
      else result
    else result

/-- The recursion of `findProjectDir` (`src/utils.ts` lines 77-149): run the
manifest/workspace step, then probe the four lockfiles in order (npm, bun,
yarn, pnpm) — the first hit fixes the manager and returns; otherwise recurse
into the parent until the filesystem root (the last chain entry, whose
parent is itself). -/
def findProjectDirAux : List DirEntry → Nat → ProjectInfo → ProjectInfo
  | [], _, result => result
  | d :: rest, i, result =>
    if d.hasNpmLock then { stepManifest d i result with pkgManagerName := some .npm }
    else if d.hasBunLock then { stepManifest d i result with pkgManagerName := some .bun }
    else if d.hasYarnLock then { stepManifest d i result with pkgManagerName := some .yarn }
    else if d.hasPnpmLock then { stepManifest d i result with pkgManagerName := some .pnpm }
    else
      match rest with
      | [] => stepManifest d i result
      | _ :: _ => findProjectDirAux rest (i + 1) (stepManifest d i result)

/-- `findProjectDir(cwd)`: run the walk from the starting directory with the
initial accumulator `{ projectDir: cwd, pkgManagerName: null, pkgJsonPath:
null, root: null }`. -/
def findProjectDir (chain : List DirEntry) : ProjectInfo :=
  findProjectDirAux chain 0 ⟨0, none, none, none⟩

/-- A directory holds at least one of the four supported lockfiles. -/
def hasAnyLock (d : DirEntry) : Bool :=
  d.hasNpmLock || d.hasBunLock || d.hasYarnLock || d.hasPnpmLock

/-- In-directory lockfile priority of `findProjectDir`: `package-lock.json`
(npm), then `bun.lockb` (bun), then `yarn.lock` (yarn), then
`pnpm-lock.yaml` (pnpm). -/
def pickManager (d : DirEntry) : Option PkgManagerName :=
  if d.hasNpmLock then some .npm
  else if d.hasBunLock then some .bun
  else if d.hasYarnLock then some .yarn
  else if d.hasPnpmLock then some .pnpm
  else none

/-- Index of the first entry satisfying a predicate (`none` if no entry
does). -/
def firstIdx (p : DirEntry → Bool) : List DirEntry → Option Nat
  | [] => none
  | d :: rest => if p d then some 0 else (firstIdx p rest).map (· + 1)

/-- Index of the directory where the walk stops: the first directory with a
lockfile, or the filesystem root (last chain entry) when there is none. -/
def stopIdx (chain : List DirEntry) : Nat :=
  match firstIdx hasAnyLock chain with
  | some i => i
  | none => chain.length - 1

/-- The nearest visited directory containing a `package.json`: the least
manifest index among the directories the walk examines. -/
def nearestManifestIdx (chain : List DirEntry) : Option Nat :=
  firstIdx (fun d => d.hasPackageJson) (chain.take (stopIdx chain + 1))

/-- A directory whose manifest declares a workspace (an array `workspaces`
field) or which carries a `pnpm-workspace.yaml` next to a manifest. -/
def wsDecl (d : DirEntry) : Bool :=
  d.hasPackageJson && ((d.workspaces).isSome || d.hasPnpmWorkspaceYaml)

theorem stepManifest_pkgManagerName (d : DirEntry) (i : Nat) (r : ProjectInfo) :
    (stepManifest d i r).pkgManagerName = r.pkgManagerName := by
  unfold stepManifest
  repeat' split
  all_goals rfl

theorem stepManifest_frozen {r : ProjectInfo} {j : Nat} (h : r.pkgJsonPath = some j)
    (d : DirEntry) (i : Nat) :
    (stepManifest d i r).pkgJsonPath = some j ∧
    (stepManifest d i r).projectDir = r.projectDir := by
  unfold stepManifest
  rw [h]
  simp only [reduceCtorEq, if_false]
  repeat' split
  all_goals first
  | exact ⟨h, rfl⟩
  | exact ⟨rfl, rfl⟩

theorem stepManifest_root (d : DirEntry) (i : Nat) (r : ProjectInfo) :
    (stepManifest d i r).root =
      (if r.pkgJsonPath.isSome && wsDecl d then some i else r.root) := by
  unfold stepManifest wsDecl
  cases hp : r.pkgJsonPath <;> cases hd : d.hasPackageJson <;>
    cases hw : (d.workspaces).isSome <;> cases hy : d.hasPnpmWorkspaceYaml <;>
    simp [hp, hd, hw, hy]

theorem stepManifest_isSome (d : DirEntry) (i : Nat) (r : ProjectInfo) :
    (stepManifest d i r).pkgJsonPath.isSome =
      (r.pkgJsonPath.isSome || d.hasPackageJson) := by
  unfold stepManifest
  cases hp : r.pkgJsonPath with
  | none => cases hd : d.hasPackageJson <;> simp [hp, hd]
  | some j =>
    simp only [hp, reduceCtorEq, if_false]
    repeat' split
    all_goals simp [hp]

theorem stepManifest_none_manifest {r : ProjectInfo} (h : r.pkgJsonPath = none)
    {d : DirEntry} (hd : d.hasPackageJson = true) (i : Nat) :
    stepManifest d i r = { r with projectDir := i, pkgJsonPath := some i } := by
  simp [stepManifest, h, hd]

theorem stepManifest_none_nomanifest {r : ProjectInfo} (h : r.pkgJsonPath = none)
    {d : DirEntry} (hd : d.hasPackageJson = false) (i : Nat) :
    stepManifest d i r = r := by
  simp [stepManifest, h, hd]

theorem findProjectDirAux_cons_lock {d : DirEntry} (hd : hasAnyLock d = true)
    (rest : List DirEntry) (i : Nat) (r : ProjectInfo) :
    findProjectDirAux (d :: rest) i r =
      { stepManifest d i r with pkgManagerName := pickManager d } := by
  unfold hasAnyLock at hd
  conv_lhs => rw [findProjectDirAux.eq_def]
  cases h1 : d.hasNpmLock <;> cases h2 : d.hasBunLock <;>
    cases h3 : d.hasYarnLock <;> cases h4 : d.hasPnpmLock <;>
    simp_all [pickManager]

theorem findProjectDirAux_singleton_nolock {d : DirEntry}
    (hd : hasAnyLock d = false) (i : Nat) (r : ProjectInfo) :
    findProjectDirAux [d] i r = stepManifest d i r := by
  unfold hasAnyLock at hd
  simp only [Bool.or_eq_false_iff] at hd
  obtain ⟨⟨⟨h1, h2⟩, h3⟩, h4⟩ := hd
  conv_lhs => rw [findProjectDirAux.eq_def]
  simp [h1, h2, h3, h4]

theorem findProjectDirAux_cons₂_nolock {d : DirEntry}
    (hd : hasAnyLock d = false) (e : DirEntry) (es : List DirEntry)
    (i : Nat) (r : ProjectInfo) :
    findProjectDirAux (d :: e :: es) i r =
      findProjectDirAux (e :: es) (i + 1) (stepManifest d i r) := by
  unfold hasAnyLock at hd
  simp only [Bool.or_eq_false_iff] at hd
  obtain ⟨⟨⟨h1, h2⟩, h3⟩, h4⟩ := hd
  conv_lhs => rw [findProjectDirAux.eq_def]
  simp [h1, h2, h3, h4]

theorem findProjectDirAux_frozen (chain : List DirEntry) :
    ∀ (i : Nat) (r : ProjectInfo) (j : Nat), r.pkgJsonPath = some j →
    (findProjectDirAux chain i r).pkgJsonPath = some j ∧
    (findProjectDirAux chain i r).projectDir = r.projectDir := by
  induction chain with
  | nil => exact fun i r j h => ⟨h, rfl⟩
  | cons d rest ih =>
    intro i r j h
    by_cases hd : hasAnyLock d = true
    · rw [findProjectDirAux_cons_lock hd]
      exact stepManifest_frozen h d i
    · have hd0 : hasAnyLock d = false := by simpa using hd
      cases rest with
      | nil =>
        rw [findProjectDirAux_singleton_nolock hd0]
        exact stepManifest_frozen h d i
      | cons e es =>
        rw [findProjectDirAux_cons₂_nolock hd0]
        have hs := stepManifest_frozen h d i
        have hr := ih (i + 1) (stepManifest d i r) j hs.1
        exact ⟨hr.1, hr.2.trans hs.2⟩

theorem firstIdx_cons_true {p : DirEntry → Bool} {d : DirEntry}
    (h : p d = true) (rest : List DirEntry) :
    firstIdx p (d :: rest) = some 0 := by
  simp [firstIdx, h]

theorem firstIdx_cons_false {p : DirEntry → Bool} {d : DirEntry}
    (h : p d = false) (rest : List DirEntry) :
    firstIdx p (d :: rest) = (firstIdx p rest).map (· + 1) := by
  simp [firstIdx, h]

theorem firstIdx_getD {p : DirEntry → Bool} (chain : List DirEntry) :
    ∀ idx, firstIdx p chain = some idx →
    p (chain.getD idx default) = true ∧ idx < chain.length := by
  induction chain with
  | nil => intro idx h; cases h
  | cons d rest ih =>
    intro idx h
    by_cases hd : p d = true
    · rw [firstIdx_cons_true hd] at h
      cases h
      simpa using hd
    · rw [firstIdx_cons_false (by simpa using hd)] at h
      cases hrest : firstIdx p rest with
      | none => rw [hrest] at h; cases h
      | some j =>
        rw [hrest] at h
        simp only [Option.map_some'] at h
        cases h
        have := ih j hrest
        constructor
        · simpa [List.getD] using this.1
        · simpa using this.2

theorem stopIdx_cons_lock {d : DirEntry} (hd : hasAnyLock d = true)
    (rest : List DirEntry) : stopIdx (d :: rest) = 0 := by
  simp [stopIdx, firstIdx_cons_true hd]

theorem stopIdx_cons_nil {d : DirEntry} (hd : hasAnyLock d = false) :
    stopIdx [d] = 0 := by
  simp [stopIdx, firstIdx, hd]

theorem stopIdx_cons_step {d : DirEntry} (hd : hasAnyLock d = false)
    {rest : List DirEntry} (hne : rest ≠ []) :
    stopIdx (d :: rest) = stopIdx rest + 1 := by
  unfold stopIdx
  rw [firstIdx_cons_false hd]
  cases hrest : firstIdx hasAnyLock rest with
  | some j => simp
  | none =>
    simp only [Option.map_none]
    have : rest.length - 1 + 1 = rest.length := Nat.succ_pred_eq_of_pos (by
      cases rest with
      | nil => exact absurd rfl hne
      | cons e es => simp)
    simp [this]

theorem nearestManifestIdx_cons_stop {d : DirEntry} {rest : List DirEntry}
    (h : hasAnyLock d = true ∨ rest = []) :
    nearestManifestIdx (d :: rest) =
      (if d.hasPackageJson then some 0 else none) := by
  unfold nearestManifestIdx
  rcases h with h | h
  · rw [stopIdx_cons_lock h]
    cases hd : d.hasPackageJson <;>
      simp [firstIdx, List.take, hd]
  · subst h
    cases hl : hasAnyLock d
    · rw [stopIdx_cons_nil hl]
      cases hd : d.hasPackageJson <;> simp [firstIdx, List.take, hd]
    · rw [stopIdx_cons_lock hl]
      cases hd : d.hasPackageJson <;> simp [firstIdx, List.take, hd]

theorem nearestManifestIdx_cons_step {d : DirEntry} (hd : hasAnyLock d = false)
    {rest : List DirEntry} (hne : rest ≠ []) :
    nearestManifestIdx (d :: rest) =
      (if d.hasPackageJson then some 0
       else (nearestManifestIdx rest).map (· + 1)) := by
  unfold nearestManifestIdx
  rw [stopIdx_cons_step hd hne]
  cases hm : d.hasPackageJson <;>
    simp [List.take_succ_cons, firstIdx, hm]

theorem findProjectDirAux_nearest (chain : List DirEntry) :
    ∀ (i : Nat) (r : ProjectInfo), r.pkgJsonPath = none →
    (findProjectDirAux chain i r).pkgJsonPath =
      (nearestManifestIdx chain).map (· + i) ∧
    (findProjectDirAux chain i r).projectDir =
      (match nearestManifestIdx chain with
       | some k => k + i
       | none => r.projectDir) := by
  induction chain with
  | nil =>
    intro i r h
    simp [findProjectDirAux, nearestManifestIdx, firstIdx, h]
  | cons d rest ih =>
    intro i r h
    by_cases hd : hasAnyLock d = true
    · rw [findProjectDirAux_cons_lock hd, nearestManifestIdx_cons_stop (Or.inl hd)]
      cases hm : d.hasPackageJson
      · rw [stepManifest_none_nomanifest h hm]
        simp [h]
      · rw [stepManifest_none_manifest h hm]
        simp
    · have hd0 : hasAnyLock d = false := by simpa using hd
      cases rest with
      | nil =>
        rw [findProjectDirAux_singleton_nolock hd0,
          nearestManifestIdx_cons_stop (Or.inr rfl)]
        cases hm : d.hasPackageJson
        · rw [stepManifest_none_nomanifest h hm]
          simp [h]
        · rw [stepManifest_none_manifest h hm]
          simp
      | cons e es =>
        rw [findProjectDirAux_cons₂_nolock hd0,
          nearestManifestIdx_cons_step hd0 (by simp)]
        cases hm : d.hasPackageJson
        · rw [stepManifest_none_nomanifest h hm]
          have hih := ih (i + 1) r h
          refine ⟨?_, ?_⟩
          · rw [hih.1]
            cases hn : nearestManifestIdx (e :: es) with
            | none => simp
            | some k => simp [hn, Nat.add_assoc, Nat.add_comm, Nat.add_left_comm]
          · rw [hih.2]
            cases hn : nearestManifestIdx (e :: es) with
            | none => simp
            | some k => simp [hn, Nat.add_assoc, Nat.add_comm, Nat.add_left_comm]
        · rw [stepManifest_none_manifest h hm]
          have hs : ({ r with projectDir := i, pkgJsonPath := some i } :
              ProjectInfo).pkgJsonPath = some i := rfl
          have hr := findProjectDirAux_frozen (e :: es) (i + 1) _ i hs
          exact ⟨by simpa using hr.1, by simpa using hr.2⟩

/-- C3 counterexample: with a lockfile in the starting directory and the
only manifest in the parent, the walk stops immediately — `projectDir`
stays at the start (index 0) and no manifest is recorded, although the
nearest ancestor containing a manifest is the parent (index 1). -/
theorem c3_lockfile_cutoff_counterexample :
    firstIdx (fun d => d.hasPackageJson)
      [⟨false, none, false, true, false, false, false⟩,
       ⟨true, none, false, false, false, false, false⟩] = some 1 ∧
    (findProjectDir
      [⟨false, none, false, true, false, false, false⟩,
       ⟨true, none, false, false, false, false, false⟩]).projectDir = 0 ∧
    (findProjectDir
      [⟨false, none, false, true, false, false, false⟩,
       ⟨true, none, false, false, false, false, false⟩]).pkgJsonPath = none := by
  decide

/-- C3 amended: `projectDir` is the nearest directory containing a manifest
among the directories the walk actually visits (from the start up to and
including the first directory holding a lockfile, or the filesystem root),
and `pkgJsonPath` records exactly that directory; when no visited directory
has a manifest, `projectDir` stays at the starting directory. Once a
manifest is recorded in a deeper directory, higher manifests never reset
`projectDir` or `pkgJsonPath` (they are the least visited manifest index). -/
theorem c3_nearest_visited_manifest (chain : List DirEntry) :
    (findProjectDir chain).pkgJsonPath = nearestManifestIdx chain ∧
    (findProjectDir chain).projectDir = (nearestManifestIdx chain).getD 0 := by
  have h := findProjectDirAux_nearest chain 0 ⟨0, none, none, none⟩ rfl
  unfold findProjectDir
  refine ⟨?_, ?_⟩
  · rw [h.1]
    cases hn : nearestManifestIdx chain <;> simp [hn]
  · rw [h.2]
    cases hn : nearestManifestIdx chain <;> simp [hn]

theorem hasAnyLock_pickManager {d : DirEntry} (hd : hasAnyLock d = true) :
    pickManager d ≠ none := by
  unfold hasAnyLock at hd
  unfold pickManager
  cases h1 : d.hasNpmLock <;> cases h2 : d.hasBunLock <;>
    cases h3 : d.hasYarnLock <;> cases h4 : d.hasPnpmLock <;>
    simp_all

theorem findProjectDirAux_stop (chain : List DirEntry) :
    ∀ (idx : Nat), firstIdx hasAnyLock chain = some idx →
    ∀ (i : Nat) (r : ProjectInfo),
    findProjectDirAux chain i r = findProjectDirAux (chain.take (idx + 1)) i r ∧
    (findProjectDirAux chain i r).pkgManagerName =
      pickManager (chain.getD idx default) := by
  induction chain with
  | nil => intro idx h; cases h
  | cons d rest ih =>
    intro idx h i r
    by_cases hd : hasAnyLock d = true
    · rw [firstIdx_cons_true hd] at h
      cases h
      rw [List.take_succ_cons, List.take_zero]
      rw [findProjectDirAux_cons_lock hd, findProjectDirAux_cons_lock hd]
      exact ⟨rfl, rfl⟩
    · have hd0 : hasAnyLock d = false := by simpa using hd
      rw [firstIdx_cons_false hd0] at h
      cases hrest : firstIdx hasAnyLock rest with
      | none => rw [hrest] at h; cases h
      | some j =>
        rw [hrest] at h
        simp only [Option.map_some'] at h
        cases h
        have hne : rest ≠ [] := by
          intro hcon
          subst hcon
          cases hrest
        cases rest with
        | nil => exact absurd rfl hne
        | cons e es =>
          rw [List.take_succ_cons]
          have htk : (e :: es).take (j + 1) = e :: es.take j := List.take_succ_cons
          have htkne : (e :: es).take (j + 1) ≠ [] := by
            rw [htk]
            simp
          rw [findProjectDirAux_cons₂_nolock hd0]
          have hih := ih j hrest (i + 1) (stepManifest d i r)
          constructor
          · rw [hih.1]
            rw [htk]
            rw [findProjectDirAux_cons₂_nolock hd0]
          · rw [hih.2]
            rfl

/-- C4: the first directory (nearest to the start) containing any supported
lockfile fixes the package manager and terminates the walk (the result is
the same as if the chain ended there, so no higher directory matters);
within one directory the priority is `package-lock.json` (npm), then
`bun.lockb` (bun), then `yarn.lock` (yarn), then `pnpm-lock.yaml` (pnpm) —
in particular, when `bun.lockb` and `yarn.lock` coexist in that directory
the result is bun. -/
theorem c4_first_lockfile_fixes_manager (chain : List DirEntry) (idx : Nat)
    (h : firstIdx hasAnyLock chain = some idx) :
    (findProjectDir chain).pkgManagerName = pickManager (chain.getD idx default) ∧
    findProjectDir chain = findProjectDir (chain.take (idx + 1)) ∧
    pickManager (chain.getD idx default) ≠ none ∧
    ((chain.getD idx default).hasNpmLock = false →
      (chain.getD idx default).hasBunLock = true →
      (findProjectDir chain).pkgManagerName = some PkgManagerName.bun) := by
  have hs := findProjectDirAux_stop chain idx h 0 ⟨0, none, none, none⟩
  have hl := firstIdx_getD chain idx h
  unfold findProjectDir
  refine ⟨hs.2, hs.1, hasAnyLock_pickManager hl.1, ?_⟩
  intro hnpm hbun
  rw [hs.2]
  unfold pickManager
  rw [hnpm, hbun]
  simp

/-- C4 witness: a chain whose starting directory holds both `bun.lockb` and
`yarn.lock` — detection stops there and reports bun. -/
theorem c4_first_lockfile_fixes_manager_witness :
    firstIdx hasAnyLock [⟨false, none, false, false, true, true, false⟩] = some 0 ∧
    (findProjectDir [⟨false, none, false, false, true, true, false⟩]).pkgManagerName =
      pickManager (([⟨false, none, false, false, true, true, false⟩] :
        List DirEntry).getD 0 default) ∧
    (findProjectDir [⟨false, none, false, false, true, true, false⟩]).pkgManagerName =
      some PkgManagerName.bun :=
  ⟨by decide,
   (c4_first_lockfile_fixes_manager _ 0 (by decide)).1,
   (c4_first_lockfile_fixes_manager _ 0 (by decide)).2.2.2 (by decide) (by decide)⟩

/-- Stop-step of the workspace-root recursion: a directory contributes a
root only when a manifest was already seen strictly below and it carries a
workspace declaration. -/
def rootSpecStop (seen : Bool) (d : DirEntry) : Option Nat :=
  if seen && wsDecl d then some 0 else none

/-- Reference recursion for the workspace-root field: scanning the chain
with a flag recording whether a manifest has already been seen strictly
below, the last visited directory with a workspace declaration (after the
manifest) wins; the scan stops at the first lockfile directory (inclusive)
or the filesystem root. -/
def rootSpecAux : List DirEntry → Bool → Option Nat
  | [], _ => none
  | [d], seen => rootSpecStop seen d
  | d :: e :: es, seen =>
    if hasAnyLock d then rootSpecStop seen d
    else
      match rootSpecAux (e :: es) (seen || d.hasPackageJson) with
      | some k => some (k + 1)
      | none => rootSpecStop seen d

/-- The workspace root predicted for a full walk (no manifest seen yet at
the start). -/
def rootSpec (chain : List DirEntry) : Option Nat := rootSpecAux chain false

theorem findProjectDirAux_root (chain : List DirEntry) :
    ∀ (i : Nat) (r : ProjectInfo),
    (findProjectDirAux chain i r).root =
      (match rootSpecAux chain r.pkgJsonPath.isSome with
       | some k => some (k + i)
       | none => r.root) := by
  induction chain with
  | nil => intro i r; rfl
  | cons d rest ih =>
    intro i r
    cases rest with
    | nil =>
      by_cases hd : hasAnyLock d = true
      · rw [findProjectDirAux_cons_lock hd]
        have hroot : ({ stepManifest d i r with
            pkgManagerName := pickManager d } : ProjectInfo).root =
            (stepManifest d i r).root := rfl
        rw [hroot, stepManifest_root]
        simp only [rootSpecAux, rootSpecStop]
        cases hb : r.pkgJsonPath.isSome && wsDecl d <;> simp
      · rw [findProjectDirAux_singleton_nolock (by simpa using hd)]
        rw [stepManifest_root]
        simp only [rootSpecAux, rootSpecStop]
        cases hb : r.pkgJsonPath.isSome && wsDecl d <;> simp
    | cons e es =>
      by_cases hd : hasAnyLock d = true
      · rw [findProjectDirAux_cons_lock hd]
        have hroot : ({ stepManifest d i r with
            pkgManagerName := pickManager d } : ProjectInfo).root =
            (stepManifest d i r).root := rfl
        rw [hroot, stepManifest_root]
        simp only [rootSpecAux, rootSpecStop, hd, if_true]
        cases hb : r.pkgJsonPath.isSome && wsDecl d <;> simp
      · have hd0 : hasAnyLock d = false := by simpa using hd
        rw [findProjectDirAux_cons₂_nolock hd0]
        rw [ih (i + 1) (stepManifest d i r)]
        rw [stepManifest_isSome, stepManifest_root]
        simp only [rootSpecAux, rootSpecStop, hd0, Bool.false_eq_true, if_false]
        cases hrs : rootSpecAux (e :: es) (r.pkgJsonPath.isSome || d.hasPackageJson) with
        | some k => simp [Nat.add_assoc, Nat.add_comm, Nat.add_left_comm]
        | none => cases hb : r.pkgJsonPath.isSome && wsDecl d <;> simp

theorem rootSpecAux_sound (chain : List DirEntry) :
    ∀ (seen : Bool) (k : Nat), rootSpecAux chain seen = some k →
    wsDecl (chain.getD k default) = true ∧ k < chain.length ∧
    (seen = false → ∃ m, m < k ∧ (chain.getD m default).hasPackageJson = true) := by
  induction chain with
  | nil => intro seen k h; cases h
  | cons d rest ih =>
    intro seen k h
    have hstop : ∀ (hcond : rootSpecStop seen d = some k),
        wsDecl ((d :: rest).getD k default) = true ∧ k < (d :: rest).length ∧
        (seen = false → ∃ m, m < k ∧
          ((d :: rest).getD m default).hasPackageJson = true) := by
      intro hcond
      unfold rootSpecStop at hcond
      by_cases hb : (seen && wsDecl d) = true
      · rw [if_pos hb] at hcond
        cases hcond
        have hb2 := hb
        simp only [Bool.and_eq_true] at hb2
        refine ⟨by simpa using hb2.2, by simp, ?_⟩
        intro hf
        rw [hf] at hb2
        cases hb2.1
      · rw [if_neg hb] at hcond
        cases hcond
    cases rest with
    | nil =>
      simp only [rootSpecAux] at h
      exact hstop h
    | cons e es =>
      simp only [rootSpecAux] at h
      by_cases hd : hasAnyLock d = true
      · rw [if_pos hd] at h
        exact hstop h
      · rw [if_neg hd] at h
        cases hrs : rootSpecAux (e :: es) (seen || d.hasPackageJson) with
        | none =>
          rw [hrs] at h
          exact hstop h
        | some k0 =>
          rw [hrs] at h
          cases h
          have hih := ih (seen || d.hasPackageJson) k0 hrs
          refine ⟨by simpa using hih.1, by simpa using hih.2.1, ?_⟩
          intro hf
          subst hf
          simp only [Bool.false_or] at hih
          cases hm : d.hasPackageJson
          · obtain ⟨m, hm1, hm2⟩ := hih.2.2 hm
            exact ⟨m + 1, by omega, by simpa using hm2⟩
          · exact ⟨0, by omega, by simpa using hm⟩

/-- C5 counterexample: a parent manifest whose `workspaces` field is the
empty array (declaring no member at all, so not matching the starting
directory under any glob semantics) still becomes the workspace root. -/
theorem c5_empty_workspaces_counterexample :
    (findProjectDir
      [⟨true, none, false, false, false, false, false⟩,
       ⟨true, some [], false, false, false, false, false⟩]).root = some 1 ∧
    (([⟨true, none, false, false, false, false, false⟩,
       ⟨true, some [], false, false, false, false, false⟩] :
      List DirEntry).getD 1 default).workspaces = some [] := by
  decide

/-- C5 amended: the workspace-root field equals `rootSpec`: it is set to the
last (highest) visited directory, strictly above the recorded nearest
manifest, whose `package.json` has an array `workspaces` field — regardless
of whether any glob matches the starting directory — or which has a
`pnpm-workspace.yaml` next to a `package.json`; consequently a root, when
set, always carries a workspace declaration and lies strictly above some
visited manifest directory. -/
theorem c5_root_characterization (chain : List DirEntry) :
    (findProjectDir chain).root = rootSpec chain ∧
    (∀ k, rootSpec chain = some k →
      wsDecl (chain.getD k default) = true ∧
      ∃ m, m < k ∧ (chain.getD m default).hasPackageJson = true) := by
  constructor
  · have h := findProjectDirAux_root chain 0 ⟨0, none, none, none⟩
    unfold findProjectDir
    rw [h]
    unfold rootSpec
    cases hr : rootSpecAux chain false <;> simp [hr]
  · intro k hk
    have hs := rootSpecAux_sound chain false k hk
    exact ⟨hs.1, hs.2.2 rfl⟩

/-- C5 witness: the claim's own scenario — a parent manifest declaring a
workspace glob for the child directory makes the parent the root. -/
theorem c5_root_characterization_witness :
    (findProjectDir
      [⟨true, none, false, false, false, false, false⟩,
       ⟨true, some [("child".data)], false, false, false, false, false⟩]).root =
      rootSpec
        [⟨true, none, false, false, false, false, false⟩,
         ⟨true, some [("child".data)], false, false, false, false, false⟩] ∧
    rootSpec
      [⟨true, none, false, false, false, false, false⟩,
       ⟨true, some [("child".data)], false, false, false, false, false⟩] = some 1 :=
  ⟨(c5_root_characterization _).1, by decide⟩

/-- `String.prototype.includes`: the needle occurs as a contiguous substring
somewhere in the haystack. -/
def includesSub (sub : List Char) : List Char → Bool
  | [] => sub.isPrefixOf []
  | c :: rest => sub.isPrefixOf (c :: rest) || includesSub sub rest

/-- `JSR_NPMRC = "@jsr:registry=https://npm.jsr.io\n"` from
`src/commands.ts`. -/
def JSR_NPMRC : List Char := "@jsr:registry=https://npm.jsr.io\n".data

/-- The marker substring probed by `setupNpmRc`
(`content.includes("@jsr:registry=")`). -/
def NPMRC_KEY : List Char := "@jsr:registry=".data

/-- `JSR_BUNFIG` from `src/commands.ts`: the `[install.scopes]` block
mapping the `@jsr` scope to the proxy registry. -/
def JSR_BUNFIG : List Char :=
  "[install.scopes]\n\"@jsr\" = \"https://npm.jsr.io\"\n".data

/-- `String.prototype.indexOf("\n")` as an optional index. -/
def idxOfNl : List Char → Option Nat
  | [] => none
  | c :: rest => if c = '\n' then some 0 else (idxOfNl rest).map (· + 1)

/-- `getNewLineChars` (`src/utils.ts` lines 245-251): report `\r\n` when the
character before the first `\n` is `\r`, else `\n` (also when there is no
newline at all or it is the first character, matching the out-of-bounds
index accesses of the source). -/
def getNewLineChars (source : List Char) : List Char :=
  match idxOfNl source with
  | some t => if source.getD (t - 1) ' ' = '\r' then ['\r', '\n'] else ['\n']
  | none => ['\n']

/-- JavaScript regex `\s` restricted to the characters relevant here
(space, tab, line/page breaks, NBSP, BOM). -/
def isJsWhitespace (c : Char) : Bool :=
  c = ' ' || c = '\t' || c = '\n' || c = '\r' || c = '\x0B' || c = '\x0C' ||
    c = ' ' || c = '﻿'

/-- The literal `"@jsr"` (with quotes) of the bunfig marker regex. -/
def BUNFIG_KEY : List Char := "\"@jsr\"".data

/-- Match of `"@jsr"\s+=` at the head of `l`. -/
def bunfigMarkAt (l : List Char) : Bool :=
  BUNFIG_KEY.isPrefixOf l &&
    !((l.drop BUNFIG_KEY.length).takeWhile isJsWhitespace).isEmpty &&
    (((l.drop BUNFIG_KEY.length).dropWhile isJsWhitespace).headD 'x' == '=')

/-- `/^"@jsr"\s+=/gm.test(content)`: the marker matches at the start of the
string or right after any `\n` (multiline anchors). -/
def bunfigHasMarker (atStart : Bool) : List Char → Bool
  | [] => false
  | c :: rest => (atStart && bunfigMarkAt (c :: rest)) || bunfigHasMarker (c == '\n') rest

/-- Entry point of the bunfig marker test (position 0 is a line start). -/
def bunfigTest (content : List Char) : Bool := bunfigHasMarker true content

/-- `setupNpmRc` (`src/commands.ts` lines 36-58) as a state transformer on
the `.npmrc` file content (`none` = file absent, modelling the `ENOENT`
branch); the boolean records whether a write happened. -/
def setupNpmRc : Option (List Char) → List Char × Bool
  | some content =>
    if includesSub NPMRC_KEY content then (content, false)
    else
      (content ++
        (if (getNewLineChars content).isSuffixOf content then []
         else getNewLineChars content) ++ JSR_NPMRC, true)
  | none => (JSR_NPMRC, true)

/-- `setupBunfigToml` (`src/commands.ts` lines 60-80) as a state transformer
on the `bunfig.toml` file content; note the source appends the block with
no separator logic at all. -/
def setupBunfigToml : Option (List Char) → List Char × Bool
  | some content =>
    if bunfigTest content then (content, false)
    else (content ++ JSR_BUNFIG, true)
  | none => (JSR_BUNFIG, true)

theorem includesSub_append_right {sub : List Char} (a : List Char)
    {b : List Char} (h : includesSub sub b = true) :
    includesSub sub (a ++ b) = true := by
  induction a with
  | nil => simpa using h
  | cons c cs ih =>
    rw [List.cons_append, includesSub, ih]
    simp

theorem setupNpmRc_establishes (st : Option (List Char)) :
    includesSub NPMRC_KEY (setupNpmRc st).1 = true := by
  have hk : includesSub NPMRC_KEY JSR_NPMRC = true := by decide
  cases st with
  | none => exact hk
  | some c =>
    simp only [setupNpmRc]
    by_cases h : includesSub NPMRC_KEY c = true
    · rw [if_pos h]
      exact h
    · rw [if_neg h]
      rw [List.append_assoc]
      exact includesSub_append_right c (includesSub_append_right _ hk)

theorem bunfigHasMarker_append (a : List Char) (atStart : Bool)
    (h : bunfigHasMarker true JSR_BUNFIG = true ∧
      bunfigHasMarker false JSR_BUNFIG = true) :
    bunfigHasMarker atStart (a ++ JSR_BUNFIG) = true := by
  induction a generalizing atStart with
  | nil =>
    cases atStart
    · simpa using h.2
    · simpa using h.1
  | cons c cs ih =>
    rw [List.cons_append, bunfigHasMarker, ih]
    simp

theorem setupBunfigToml_establishes (st : Option (List Char)) :
    bunfigTest (setupBunfigToml st).1 = true := by
  have hk : bunfigHasMarker true JSR_BUNFIG = true ∧
      bunfigHasMarker false JSR_BUNFIG = true := by decide
  cases st with
  | none => exact hk.1
  | some c =>
    simp only [setupBunfigToml]
    by_cases h : bunfigTest c = true
    · rw [if_pos h]
      exact h
    · rw [if_neg h]
      exact bunfigHasMarker_append c true hk

/-- C6: both registry configuration writers are idempotent — the marker test
is a substring/pattern probe, after any first call the marker is present, so
a second call performs no write and leaves the file byte-identical, from any
initial file state (including a missing file). -/
theorem setupNpmRc_noop {X : List Char} (h : includesSub NPMRC_KEY X = true) :
    setupNpmRc (some X) = (X, false) := by
  simp only [setupNpmRc, h, if_true]

theorem setupBunfigToml_noop {X : List Char} (h : bunfigTest X = true) :
    setupBunfigToml (some X) = (X, false) := by
  simp only [setupBunfigToml, h, if_true]

theorem c6_config_writers_idempotent (st : Option (List Char)) :
    (setupNpmRc (some (setupNpmRc st).1)).1 = (setupNpmRc st).1 ∧
    (setupNpmRc (some (setupNpmRc st).1)).2 = false ∧
    (setupBunfigToml (some (setupBunfigToml st).1)).1 = (setupBunfigToml st).1 ∧
    (setupBunfigToml (some (setupBunfigToml st).1)).2 = false := by
  have h1 := setupNpmRc_establishes st
  have h2 := setupBunfigToml_establishes st
  rw [setupNpmRc_noop h1, setupBunfigToml_noop h2]
  exact ⟨rfl, rfl, rfl, rfl⟩

/-- C7 counterexample: appending to a `bunfig.toml` whose content does not
end with a line break inserts no separator — the block is glued directly to
the last line, not separated as the claim states for the configuration
writers. -/
theorem c7_bunfig_no_separator_counterexample :
    (setupBunfigToml (some ("abc".data))).1 = ("abc".data) ++ JSR_BUNFIG ∧
    getNewLineChars ("abc".data) = ['\n'] ∧
    (['\n'].isSuffixOf ("abc".data)) = false ∧
    (setupBunfigToml (some ("abc".data))).1 ≠
      ("abc".data) ++ ['\n'] ++ JSR_BUNFIG := by
  decide

/-- C7 amended: `setupNpmRc` appends exactly `old ++ separator ++ mapping`,
where the separator uses the file's detected line-ending convention (`\n` or
`\r\n`) and is empty exactly when the old content already ends with that
convention — the old content stays a verbatim prefix and the mapping is the
suffix; `setupBunfigToml` appends the mapping block directly with no
separator logic (the old content still a verbatim prefix); a missing file is
created containing exactly the mapping. -/
theorem c7_append_preserves_content (c : List Char) :
    (includesSub NPMRC_KEY c = false →
      (setupNpmRc (some c)).1 =
        c ++
          (if (getNewLineChars c).isSuffixOf c then []
           else getNewLineChars c) ++ JSR_NPMRC ∧
      c <+: (setupNpmRc (some c)).1 ∧
      JSR_NPMRC <:+ (setupNpmRc (some c)).1 ∧
      (getNewLineChars c = ['\n'] ∨ getNewLineChars c = ['\r', '\n'])) ∧
    (bunfigTest c = false →
      (setupBunfigToml (some c)).1 = c ++ JSR_BUNFIG ∧
      c <+: (setupBunfigToml (some c)).1) ∧
    (setupNpmRc none).1 = JSR_NPMRC ∧
    (setupBunfigToml none).1 = JSR_BUNFIG := by
  refine ⟨?_, ?_, rfl, rfl⟩
  · intro h
    have hval : (setupNpmRc (some c)).1 =
        c ++
          (if (getNewLineChars c).isSuffixOf c then []
           else getNewLineChars c) ++ JSR_NPMRC := by
      simp [setupNpmRc, h]
    refine ⟨hval, ?_, ?_, ?_⟩
    · rw [hval, List.append_assoc]
      exact List.prefix_append c _
    · rw [hval]
      exact List.suffix_append _ _
    · unfold getNewLineChars
      cases hidx : idxOfNl c with
      | none => simp
      | some t =>
        by_cases hcr : c.getD (t - 1) ' ' = '\r'
        · simp [List.getD] at hcr
          simp [hcr]
        · simp [List.getD] at hcr
          simp [hcr]
  · intro h
    have hval : (setupBunfigToml (some c)).1 = c ++ JSR_BUNFIG := by
      simp [setupBunfigToml, h]
    exact ⟨hval, by rw [hval]; exact List.prefix_append c _⟩

/-- C7 witness: the amended theorem applied to the one-character file `x`
(no trailing newline, no marker). -/
theorem c7_append_preserves_content_witness :
    (setupNpmRc (some ("x".data))).1 =
      ("x".data) ++
        (if (getNewLineChars ("x".data)).isSuffixOf ("x".data) then []
         else getNewLineChars ("x".data)) ++ JSR_NPMRC ∧
    (setupBunfigToml (some ("x".data))).1 = ("x".data) ++ JSR_BUNFIG :=
  ⟨((c7_append_preserves_content ("x".data)).1 (by decide)).1,
   ((c7_append_preserves_content ("x".data)).2.1 (by decide)).1⟩

/-- Install dependency mode (`InstallOptions["mode"]` in
`src/commands.ts`). -/
inductive InstallMode where
  | dev | prod | optional
deriving Repr, DecidableEq

/-- `modeToFlag` (`src/pkg_manager.ts` lines 113-119): the npm/pnpm flag
vocabulary (empty string in prod mode). -/
def modeToFlag : InstallMode → List Char
  | .dev => "--save-dev".data
  | .optional => "--save-optional".data
  | .prod => []

/-- `modeToFlagYarn` (`src/pkg_manager.ts` lines 121-123): the yarn/bun flag
vocabulary (empty string in prod mode). -/
def modeToFlagYarn : InstallMode → List Char
  | .dev => "--dev".data
  | .optional => "--optional".data
  | .prod => []

/-- One subprocess invocation: executable name and argument vector. -/
structure Invocation where
  cmd : List Char
  args : List (List Char)
deriving Repr, DecidableEq

/-- `toPackageArgs`: each package becomes
`@scope/name@npm:@jsr/scope__name[@version]`. -/
def toPackageArgs (pkgs : List JsrPackage) : List (List Char) :=
  pkgs.map (fun pkg =>
    '@' :: (pkg.scope ++ '/' :: (pkg.name ++ ("@npm:".data) ++ pkg.toNpmPackage)))

/-- `if (mode !== "") args.push(mode)` — the conditional flag push shared by
all four install implementations. -/
def pushMode (flag : List Char) : List (List Char) :=
  if flag = [] then [] else [flag]

/-- `Npm.install` (`src/pkg_manager.ts` lines 173-182). -/
def Npm.install (packages : List JsrPackage) (mode : InstallMode) : Invocation :=
  ⟨"npm".data, ("install".data) :: (pushMode (modeToFlag mode) ++ toPackageArgs packages)⟩

/-- `Npm.remove` (`src/pkg_manager.ts` lines 184-190). -/
def Npm.remove (packages : List JsrPackage) : Invocation :=
  ⟨"npm".data, ("remove".data) :: packages.map JsrPackage.toString⟩

/-- `Npm.runScript` (`src/pkg_manager.ts` lines 192-194). -/
def Npm.runScript (script : List Char) : Invocation :=
  ⟨"npm".data, [("run".data), script]⟩

/-- `Yarn.install` (`src/pkg_manager.ts` lines 200-208). -/
def Yarn.install (packages : List JsrPackage) (mode : InstallMode) : Invocation :=
  ⟨"yarn".data, ("add".data) :: (pushMode (modeToFlagYarn mode) ++ toPackageArgs packages)⟩

/-- `Yarn.remove` (`src/pkg_manager.ts` lines 210-216). -/
def Yarn.remove (packages : List JsrPackage) : Invocation :=
  ⟨"yarn".data, ("remove".data) :: packages.map JsrPackage.toString⟩

/-- `Yarn.runScript` (`src/pkg_manager.ts` lines 218-220). -/
def Yarn.runScript (script : List Char) : Invocation :=
  ⟨"yarn".data, [script]⟩

/-- `Pnpm.install` (`src/pkg_manager.ts` lines 253-261). -/
def Pnpm.install (packages : List JsrPackage) (mode : InstallMode) : Invocation :=
  ⟨"pnpm".data, ("add".data) :: (pushMode (modeToFlag mode) ++ toPackageArgs packages)⟩

/-- `Pnpm.remove` (`src/pkg_manager.ts` lines 263-269): the source spawns
the `yarn` executable here. -/
def Pnpm.remove (packages : List JsrPackage) : Invocation :=
  ⟨"yarn".data, ("remove".data) :: packages.map JsrPackage.toString⟩

/-- `Pnpm.runScript` (`src/pkg_manager.ts` lines 271-273). -/
def Pnpm.runScript (script : List Char) : Invocation :=
  ⟨"pnpm".data, [script]⟩

/-- `Bun.install` (`src/pkg_manager.ts` lines 279-287). -/
def Bun.install (packages : List JsrPackage) (mode : InstallMode) : Invocation :=
  ⟨"bun".data, ("add".data) :: (pushMode (modeToFlagYarn mode) ++ toPackageArgs packages)⟩

/-- `Bun.remove` (`src/pkg_manager.ts` lines 289-295). -/
def Bun.remove (packages : List JsrPackage) : Invocation :=
  ⟨"bun".data, ("remove".data) :: packages.map JsrPackage.toString⟩

/-- `Bun.runScript` (`src/pkg_manager.ts` lines 297-299). -/
def Bun.runScript (script : List Char) : Invocation :=
  ⟨"bun".data, [("run".data), script]⟩

/-- C8 (code bug): the pnpm adapter's `remove` spawns the `yarn` executable,
contradicting the claim (and the evident intent of the `Pnpm` class, whose
`install` and `runScript` spawn `pnpm`); the flag vocabularies themselves
match the claim (npm/pnpm use `--save-dev`/`--save-optional`, yarn/bun use
`--dev`/`--optional`, no flag in prod mode), as do all other executables. -/
theorem c8_pnpm_remove_spawns_yarn :
    (Pnpm.remove [⟨"std".data, "log".data, none⟩]).cmd = "yarn".data ∧
    ("yarn".data) ≠ ("pnpm".data) ∧
    (Pnpm.install [⟨"std".data, "log".data, none⟩] InstallMode.prod).cmd = "pnpm".data ∧
    (Pnpm.runScript ("test".data)).cmd = "pnpm".data ∧
    (Npm.install [] InstallMode.dev).args = [("install".data), ("--save-dev".data)] ∧
    (Pnpm.install [] InstallMode.optional).args = [("add".data), ("--save-optional".data)] ∧
    (Yarn.install [] InstallMode.dev).args = [("add".data), ("--dev".data)] ∧
    (Bun.install [] InstallMode.optional).args = [("add".data), ("--optional".data)] ∧
    (Npm.install [] InstallMode.prod).args = [("install".data)] ∧
    (Bun.install [] InstallMode.prod).args = [("add".data)] ∧
    (Npm.remove []).cmd = "npm".data ∧
    (Yarn.remove []).cmd = "yarn".data ∧
    (Bun.remove []).cmd = "bun".data ∧
    (Npm.runScript ("t".data)).cmd = "npm".data ∧
    (Yarn.runScript ("t".data)).cmd = "yarn".data ∧
    (Bun.runScript ("t".data)).cmd = "bun".data := by
  decide

/-- The `latest` field of the registry metadata (`PackageMeta` in
`src/api.ts`): absent from the response, explicitly `null` (no stable
release), or a version string. -/
inductive LatestField where
  | missing
  | nullVal
  | value (v : List Char)
deriving Repr, DecidableEq

/-- Registry metadata as consumed by `showPackageInfo`: the `latest` field
and `Object.keys(meta.versions)` in their enumeration order. -/
structure PackageMeta where
  latest : LatestField
  versions : List (List Char)
deriving Repr

/-- Decimal digit character class. -/
def isDigitCh (c : Char) : Bool := ('0' ≤ c) && (c ≤ '9')

/-- Decimal value of a digit string. -/
def digitsToNat (l : List Char) : Nat :=
  l.foldl (fun acc c => acc * 10 + (c.toNat - 48)) 0

/-- A SemVer numeric identifier: nonempty, digits only. -/
def isNumericIdent (l : List Char) : Bool := !l.isEmpty && l.all isDigitCh

/-- Modelled from the spec: sort key of one prerelease identifier under
SemVer precedence (numeric identifiers sort before and among themselves
numerically; alphanumeric ones lexically); the leading tag 0/1 is below
every character code, so identifier boundaries order shorter prefixes
first, as SemVer requires. -/
def identKey (l : List Char) : List Nat :=
  if isNumericIdent l then [0, digitsToNat l] else 1 :: l.map Char.toNat

/-- Modelled from the spec: total sort key of a version string under SemVer
precedence, standing in for the external `semiver` comparator used by
`showPackageInfo` (`versions.sort(semiver)`): major/minor/patch
numerically, a release sorting after any prerelease of the same core, then
prerelease identifiers in order; build metadata is ignored; strings that do
not parse as SemVer sort after all parseable ones, by code points. -/
def verKey (v : List Char) : List Nat :=
  match (v.takeWhile (fun c => c ≠ '+')).takeWhile (fun c => c ≠ '-') |>.splitOn '.' with
  | [ma, mi, pa] =>
    if isNumericIdent ma && isNumericIdent mi && isNumericIdent pa then
      0 :: digitsToNat ma :: digitsToNat mi :: digitsToNat pa ::
        (if (((v.takeWhile (fun c => c ≠ '+')).dropWhile (fun c => c ≠ '-')).drop 1).isEmpty
          && ((v.takeWhile (fun c => c ≠ '+')).dropWhile (fun c => c ≠ '-')).isEmpty then [1]
         else 0 ::
           ((((v.takeWhile (fun c => c ≠ '+')).dropWhile (fun c => c ≠ '-')).drop 1).splitOn '.').foldr
             (fun id acc => identKey id ++ acc) [])
    else 1 :: v.map Char.toNat
  | _ => 1 :: v.map Char.toNat

/-- Comparator relation passed to the sort: ascending SemVer precedence. -/
def semiverLeP (a b : List Char) : Prop := verKey a ≤ verKey b

instance : DecidableRel semiverLeP := fun a b =>
  inferInstanceAs (Decidable (verKey a ≤ verKey b))

instance : IsTotal (List Char) semiverLeP :=
  ⟨fun a b => le_total (verKey a) (verKey b)⟩

instance : IsTrans (List Char) semiverLeP :=
  ⟨fun _ _ _ h1 h2 => le_trans h1 h2⟩

/-- The version-selection policy of `showPackageInfo` (`src/commands.ts`
lines 207-225): keep a user-given version; otherwise take the registry's
`latest`; when `latest` is explicitly null, error on an empty version set,
else sort all published versions with the comparator and take the first
(smallest); a missing `latest` field is an error naming the package. -/
def resolveShownVersion (pkg : JsrPackage) (meta : PackageMeta) :
    Except JsrError (List Char) :=
  match pkg.version with
  | some v => .ok v
  | none =>
    match meta.latest with
    | .missing =>
      .error (.genericError (("Missing latest version for ".data) ++ pkg.toString))
    | .nullVal =>
      if meta.versions.isEmpty then
        .error (.genericError
          (("Could not find published version for ".data) ++ pkg.toString))
      else .ok ((List.insertionSort semiverLeP meta.versions).headD [])
    | .value v => .ok v

theorem insertionSort_head_min (l : List (List Char)) (hne : l ≠ []) :
    (List.insertionSort semiverLeP l).headD [] ∈ l ∧
    ∀ w ∈ l, verKey ((List.insertionSort semiverLeP l).headD []) ≤ verKey w := by
  have hperm := List.perm_insertionSort semiverLeP l
  have hsorted := List.sorted_insertionSort semiverLeP l
  have hne2 : List.insertionSort semiverLeP l ≠ [] := by
    intro hcon
    have hlen := hperm.length_eq
    rw [hcon] at hlen
    simp only [List.length_nil] at hlen
    exact hne (List.length_eq_zero.mp hlen.symm)
  cases hs : List.insertionSort semiverLeP l with
  | nil => exact absurd hs hne2
  | cons h t =>
    rw [hs] at hperm hsorted
    constructor
    · exact hperm.mem_iff.mp (by simp)
    · intro w hw
      have hmem := hperm.mem_iff.mpr hw
      rcases List.mem_cons.mp hmem with hh | hh
      · subst hh
        simp
      · have hle := (List.pairwise_cons.mp hsorted).1 w hh
        simpa using hle

/-- C9: when the user gave no version, show-info selects the registry's
non-null `latest`; when `latest` is explicitly null and versions exist, it
selects the smallest version of the set under the (SemVer-precedence)
comparator ordering, not the newest; when `latest` is null with no
versions, or the `latest` field is missing entirely, it fails with an error
naming the package. -/
theorem c9_show_info_version_selection (pkg : JsrPackage) (meta : PackageMeta)
    (hv : pkg.version = none) :
    (∀ v, meta.latest = .value v → resolveShownVersion pkg meta = .ok v) ∧
    (meta.latest = .missing →
      ∃ msg, resolveShownVersion pkg meta = .error (.genericError msg) ∧
        pkg.toString <:+ msg) ∧
    (meta.latest = .nullVal → meta.versions = [] →
      ∃ msg, resolveShownVersion pkg meta = .error (.genericError msg) ∧
        pkg.toString <:+ msg) ∧
    (meta.latest = .nullVal → meta.versions ≠ [] →
      ∃ v, resolveShownVersion pkg meta = .ok v ∧ v ∈ meta.versions ∧
        ∀ w ∈ meta.versions, verKey v ≤ verKey w) := by
  refine ⟨?_, ?_, ?_, ?_⟩
  · intro v hl
    simp [resolveShownVersion, hv, hl]
  · intro hl
    refine ⟨("Missing latest version for ".data) ++ pkg.toString, ?_,
      List.suffix_append _ _⟩
    simp [resolveShownVersion, hv, hl]
  · intro hl hempty
    refine ⟨("Could not find published version for ".data) ++ pkg.toString, ?_,
      List.suffix_append _ _⟩
    simp [resolveShownVersion, hv, hl, hempty]
  · intro hl hne
    have hmin := insertionSort_head_min meta.versions hne
    refine ⟨(List.insertionSort semiverLeP meta.versions).headD [], ?_, hmin.1, hmin.2⟩
    simp [resolveShownVersion, hv, hl, List.isEmpty_eq_false.mpr hne]

/-- C9 witness: the spec's own scenario — `latest` null with pre-release
versions `1.0.0-rc.1` and `0.9.0-rc.2` selects `0.9.0-rc.2`, the smallest
by precedence, rather than failing. -/
theorem c9_show_info_version_selection_witness :
    resolveShownVersion ⟨"std".data, "fs".data, none⟩
      ⟨.nullVal, [("1.0.0-rc.1".data), ("0.9.0-rc.2".data)]⟩ =
      .ok ("0.9.0-rc.2".data) ∧
    (∃ v, resolveShownVersion ⟨"std".data, "fs".data, none⟩
        ⟨.nullVal, [("1.0.0-rc.1".data), ("0.9.0-rc.2".data)]⟩ = .ok v ∧
      v ∈ [("1.0.0-rc.1".data), ("0.9.0-rc.2".data)] ∧
      ∀ w ∈ [("1.0.0-rc.1".data), ("0.9.0-rc.2".data)], verKey v ≤ verKey w) :=
  ⟨by decide,
   (c9_show_info_version_selection ⟨"std".data, "fs".data, none⟩
      ⟨.nullVal, [("1.0.0-rc.1".data), ("0.9.0-rc.2".data)]⟩ rfl).2.2.2 rfl (by decide)⟩

/-- How a CLI invocation terminates: normal completion (printing the timing
line), `process.exit(code)`, or an uncaught rethrown error which makes the
node process die non-zero with the stack surfaced. -/
inductive RunOutcome where
  | completed
  | exitStatus (code : Int)
  | fatal (e : JsrError)
deriving Repr, DecidableEq

/-- The settlement of `exec` (`src/utils.ts` lines 208-243) as a function of
the child exit code (`none` models a null code, e.g. signal termination):
exit 0 resolves, anything else rejects with `ExecError(code ?? 1)`. -/
def execResult (code : Option Int) : Except JsrError Unit :=
  match code with
  | some c => if c = 0 then .ok () else .error (.execError c)
  | none => .error (.execError 1)

/-- The top-level `run` wrapper (`src/bin.ts` lines 275-293): success prints
the completion line; `JsrPackageNameError` prints its message and exits 1;
`ExecError` exits with the carried code; anything else is rethrown. -/
def run (r : Except JsrError Unit) : RunOutcome :=
  match r with
  | .ok _ => .completed
  | .error (.jsrPackageNameError _) => .exitStatus 1
  | .error (.execError code) => .exitStatus code
  | .error e => .fatal e

/-- C10: a subprocess exiting with a non-zero numeric code makes the run
terminate with that same exit code, carried through the typed `ExecError`; a
package-naming error exits with code 1; any other error is rethrown
(uncaught, so the process dies non-zero with the diagnostic surfaced); a
zero exit code completes normally, and a null exit code is normalized to 1. -/
theorem c10_failure_exit_codes (c : Int) (hc : c ≠ 0) (msg : List Char)
    (e : JsrError) (hname : ∀ m, e ≠ .jsrPackageNameError m)
    (hexec : ∀ k, e ≠ .execError k) :
    execResult (some c) = .error (.execError c) ∧
    run (execResult (some c)) = .exitStatus c ∧
    run (.error (.jsrPackageNameError msg)) = .exitStatus 1 ∧
    run (.error e) = .fatal e ∧
    run (execResult (some 0)) = .completed ∧
    run (execResult none) = .exitStatus 1 := by
  have hres : execResult (some c) = .error (.execError c) := by
    simp [execResult, hc]
  refine ⟨hres, ?_, rfl, ?_, rfl, rfl⟩
  · rw [hres]
    rfl
  · cases e with
    | jsrPackageNameError m => exact absurd rfl (hname m)
    | execError k => exact absurd rfl (hexec k)
    | genericError m => rfl

/-- C10 witness: exit code 42 propagates as exit status 42; a naming error
exits 1; a generic error is rethrown. -/
theorem c10_failure_exit_codes_witness :
    execResult (some 42) = .error (.execError 42) ∧
    run (execResult (some 42)) = .exitStatus 42 ∧
    run (.error (.jsrPackageNameError ("bad name".data))) = .exitStatus 1 ∧
    run (.error (.genericError ("boom".data))) = .fatal (.genericError ("boom".data)) ∧
    run (execResult (some 0)) = .completed ∧
    run (execResult none) = .exitStatus 1 :=
  c10_failure_exit_codes 42 (by decide) ("bad name".data)
    (.genericError ("boom".data))
    (fun m h => JsrError.noConfusion h) (fun k h => JsrError.noConfusion h)

end JsrNpm
